import Mathlib

/-!
Verification of the hierarchical trend-estimation engine of `volatile.py`.

The development shallowly embeds the numeric core of the script:
the order-selection loop, the time-basis constructor (`tt`, `order_scale`,
forecast bases), the model-level dispatch of `define_model`, the staged
optimizer's data flow in `training`, `softplus`, and the trend-band
classification of the main block.  Machine floats are modelled by exact
rationals; where IEEE non-finite values matter (the backtest loss
comparisons) an explicit three-way value type `Vfloat` with IEEE comparison
semantics is used.
-/

namespace Volatile

/-! ### Order selection loop (`order_selection`, volatile.py lines 260-287)

The backtest loss of a candidate order is a numpy float: it can be a finite
value, `np.inf` (the initial `min_loss`), or NaN (diverged optimization).
`Vfloat` models exactly these three cases, and `vgt` models the Python
comparison `loss > min_loss` with IEEE semantics: any comparison with NaN
is False. -/

inductive Vfloat where
  | fin (q : ℚ)
  | inf
  | nan
deriving DecidableEq, Repr

/-- IEEE semantics of the Python expression `a > b` on floats:
every comparison involving NaN is False, `inf > inf` is False. -/
def vgt : Vfloat → Vfloat → Bool
  | Vfloat.nan, _ => false
  | _, Vfloat.nan => false
  | Vfloat.inf, Vfloat.inf => false
  | Vfloat.inf, Vfloat.fin _ => true
  | Vfloat.fin _, Vfloat.inf => false
  | Vfloat.fin a, Vfloat.fin b => decide (b < a)

/-- The mutable state of the selection loop: `min_loss`, `min_order`
(`none` before the first assignment, mirroring the unbound Python name),
and the patience counter `count`. -/
structure SelState where
  min_loss : Vfloat
  min_order : Option ℕ
  count : ℕ
deriving DecidableEq, Repr

/-- One iteration of the body of the `for i, order in enumerate(orders)`
loop, lines 278-283:

    if i > 0 and loss > min_loss:
        count += 1
    else:
        min_loss = loss
        min_order = order
        count = 0
-/
def selStep (i : ℕ) (order : ℕ) (loss : Vfloat) (s : SelState) : SelState :=
  if 0 < i ∧ vgt loss s.min_loss then
    { s with count := s.count + 1 }
  else
    { min_loss := loss, min_order := some order, count := 0 }

/-- The candidate loop of `order_selection`, including the early stop
`if count == 3: break` (lines 284-285).  The backtest loss of each
candidate order is supplied as data, since it is the output of the
TensorFlow training run. -/
def selLoop : List (ℕ × Vfloat) → ℕ → SelState → SelState
  | [], _, s => s
  | (o, l) :: rest, i, s =>
    let s2 := selStep i o l s
    if s2.count = 3 then s2 else selLoop rest (i + 1) s2

/-- Initial loop state: `min_loss = np.inf`, `min_order` unbound, `count = 0`. -/
def initState : SelState := ⟨Vfloat.inf, none, 0⟩

/-- `order_selection` restricted to its selection logic: given the candidate
orders paired with their backtest losses, return the selected `min_order`. -/
def order_selection (cands : List (ℕ × Vfloat)) : Option ℕ :=
  (selLoop cands 0 initState).min_order

/-! ### Softplus (volatile.py lines 233-242) -/

noncomputable section

/-- `softplus(x) = log(1 + exp(x))`, the map from reals to positive reals
used to parameterize the volatility standard deviation. -/
def softplus (x : ℝ) : ℝ := Real.log (1 + Real.exp x)

end

/-! ### Model definition (`define_model`, volatile.py lines 110-158)

The TFP joint distribution is embedded symbolically: the list `m` of
distribution nodes is modelled as a list of `Node`s recording, for each
latent pair `(phi, psi)` appended, its level name and the prior-scale
factor used in the source (4, 2, 1, 0.5), plus the observation node `y`
built for the requested level.  What matters for the claims is which nodes
are appended for which `level` argument, and that an unknown level raises. -/

inductive Node where
  | latent (name : String) (scaleFactor : ℚ)
  | obs (level : String)
deriving DecidableEq, Repr

def available_levels : List String := ["market", "sector", "industry", "stock"]

/-- The message of the `Exception` raised for an unknown level. -/
def unknownLevelMessage : String :=
  "Selected level is unknown. Please provide one of the following levels: market, sector, industry, stock."

/-- `define_model(info, level)`: raises for a level outside
`available_levels`; otherwise builds the node list `m`, appending the
sector, industry and stock latent pairs only for finer levels, and one
observation node for the requested level. -/
def define_model (level : String) : Except String (List Node) :=
  if level ∉ available_levels then
    Except.error unknownLevelMessage
  else
    let m : List Node := [Node.latent "phi_m" 4, Node.latent "psi_m" 4]
    let m := m ++
      (if level ≠ "market" then
        [Node.latent "phi_s" 2, Node.latent "psi_s" 2] ++
          (if level ≠ "sector" then
            [Node.latent "phi_i" 1, Node.latent "psi_i" 1] ++
              (if level ≠ "industry" then
                [Node.latent "phi" (1 / 2), Node.latent "psi" (1 / 2)]
              else [])
          else [])
      else [])
    Except.ok (m ++ [Node.obs level])

/-! ### Staged optimizer data flow (`training`, volatile.py lines 160-231)

`training` runs four `tfp.math.minimize` calls.  At each stage the code
creates fresh `tf.Variable`s (initialized to zeros) for exactly that
level's pair `(phi, psi)` and converts the previous level's pair to
`tf.constant`, so the only trainable variables a stage's minimize call can
mutate are that stage's own pair; everything else in the loss closure is
read-only.  The embedding: a `Store` maps each of the eight parameter
names to its current value; `minimizeVars upd trainable` models one
minimize call, where `upd` (the abstracted optimizer, free to compute
anything from the whole store) is applied only at the trainable names and
every other name keeps its value. -/

inductive PName where
  | phiM | psiM | phiS | psiS | phiI | psiI | phiStock | psiStock
deriving DecidableEq, Repr

def Store (P : Type) : Type := PName → P

/-- Trainable variables of the market stage: the `tf.Variable`s `phi_m, psi_m`. -/
def marketVars : PName → Bool
  | PName.phiM | PName.psiM => true
  | _ => false

/-- Trainable variables of the sector stage (`phi_m, psi_m` are now `tf.constant`). -/
def sectorVars : PName → Bool
  | PName.phiS | PName.psiS => true
  | _ => false

/-- Trainable variables of the industry stage. -/
def industryVars : PName → Bool
  | PName.phiI | PName.psiI => true
  | _ => false

/-- Trainable variables of the stock stage. -/
def stockVars : PName → Bool
  | PName.phiStock | PName.psiStock => true
  | _ => false

/-- One `tfp.math.minimize` call: the optimizer `upd` may read the whole
store, but only the trainable names are written. -/
def minimizeVars {P : Type} (upd : Store P → PName → P) (trainable : PName → Bool)
    (s : Store P) : Store P :=
  fun n => if trainable n then upd s n else s n

/-- The four sequential stages of `training`: market, sector, industry,
stock, each minimizing with its own trainable pair, starting from the
zero-initialized store `init`.  Returns the final values of all eight
parameter groups. -/
def training {P : Type} (updM updS updI updStock : Store P → PName → P)
    (init : Store P) : Store P :=
  minimizeVars updStock stockVars
    (minimizeVars updI industryVars
      (minimizeVars updS sectorVars
        (minimizeVars updM marketVars init)))

/-! ### Time-basis constructor (volatile.py lines 264-265, 271, 336-338, 349) -/

/-- `np.linspace(a, b, n)`: `n` evenly spaced points from `a` to `b`
inclusive (the single point `a` for `n = 1`, empty for `n = 0`). -/
def linspace (a b : ℚ) (n : ℕ) : List ℚ :=
  if n ≤ 1 then List.replicate n a
  else (List.range n).map (fun (i : ℕ) => a + (i : ℚ) * (b - a) / ((n : ℚ) - 1))

/-- `np.linspace(1/(order+1), 1, order+1)[::-1]` (lines 265 and 338): the
order-dependent prior-scale multipliers for polynomial order `k`. -/
def order_scale (k : ℕ) : List ℚ :=
  (linspace (1 / ((k : ℚ) + 1)) 1 (k + 1)).reverse

/-- In-sample day fractions `np.linspace(1/t, 1, t)` (lines 264 and 336). -/
def day_frac_in (t : ℕ) : List ℚ := linspace (1 / (t : ℚ)) 1 t

/-- Backtest forecast day fractions `1 + np.arange(1, 1+horizon)/t`
(line 271 in `order_selection`): `h` points `1 + 1/t, ..., 1 + h/t`. -/
def day_frac_backtest (t h : ℕ) : List ℚ :=
  (List.range h).map (fun (d : ℕ) => 1 + ((d : ℚ) + 1) / (t : ℚ))

/-- Final-prediction day fractions `1 + np.arange(1+horizon)/t`
(line 349 in the main block): `1 + h` points `1, 1 + 1/t, ..., 1 + h/t`. -/
def day_frac_main (t h : ℕ) : List ℚ :=
  (List.range (1 + h)).map (fun (d : ℕ) => 1 + (d : ℚ) / (t : ℚ))

/-- Raising a day-fraction vector to the powers `np.arange(k+1)[:, None]`:
row `j` of the resulting basis matrix holds the `j`-th powers. -/
def tt_basis (fracs : List ℚ) (k : ℕ) : List (List ℚ) :=
  (List.range (k + 1)).map (fun j => fracs.map (fun x => x ^ j))

/-- The in-sample basis matrix `info['tt']` (lines 264 and 336). -/
def tt (k t : ℕ) : List (List ℚ) := tt_basis (day_frac_in t) k

/-- The forecast basis `tt_pred` of the backtest in `order_selection` (line 271). -/
def tt_pred_backtest (k t h : ℕ) : List (List ℚ) := tt_basis (day_frac_backtest t h) k

/-- The forecast basis `tt_pred` of the final prediction (line 349). -/
def tt_pred_main (k t h : ℕ) : List (List ℚ) := tt_basis (day_frac_main t h) k

/-- Shape and extrapolation property of the two forecast bases (the
amended claim C3): the backtest basis is `(k+1) × h`, the final-prediction
basis is `(k+1) × (1+h)`, and both day-fraction grids continue the
in-sample grid linearly beyond 1 in steps of `1/t` (the final-prediction
grid starting at 1 itself). -/
def ForecastBasisSpec (k t h : ℕ) : Prop :=
  (tt_pred_backtest k t h).length = k + 1 ∧
  (∀ row ∈ tt_pred_backtest k t h, row.length = h) ∧
  (tt_pred_main k t h).length = k + 1 ∧
  (∀ row ∈ tt_pred_main k t h, row.length = 1 + h) ∧
  List.Chain' (fun a b => b = a + 1 / (t : ℚ)) (day_frac_in t ++ day_frac_backtest t h) ∧
  (day_frac_main t h).head? = some 1 ∧
  List.Chain' (fun a b => b = a + 1 / (t : ℚ)) (day_frac_main t h)

/-! ### Trend-band classification (volatile.py lines 388-398)

The main block ranks stocks by descending score and builds:
  - `st`: the threshold dict (3, 2, 0, -2, -3);
  - `si`: for each band, `np.where` of an interval condition over
    `ranked_scores`, filtered to nonempty bands and reduced to the first
    index `v[0]` of each (line 396), preserving dict insertion order;
  - `ranked_rating`: the band names repeated by
    `np.diff(list(si.values())) + [num_stocks - list(si.values())[-1]]`
    (line 398).
Scores are exact rationals; the subtractions in `np.diff` are modelled by
truncated `ℕ` subtraction, which agrees with numpy on the
descending-sorted inputs quantified over (first indices are increasing). -/

inductive Band where
  | highlyBelow | below | along | above | highlyAbove
deriving DecidableEq, Repr

/-- The display names of the five bands (the keys of the dicts `st`, `si`). -/
def bandName : Band → String
  | Band.highlyBelow => "HIGHLY BELOW TREND"
  | Band.below => "BELOW TREND"
  | Band.along => "ALONG TREND"
  | Band.above => "ABOVE TREND"
  | Band.highlyAbove => "HIGHLY ABOVE TREND"

/-- The default threshold dict `st` (line 389). -/
def st : Band → ℚ
  | Band.highlyBelow => 3
  | Band.below => 2
  | Band.along => 0
  | Band.above => -2
  | Band.highlyAbove => -3

/-- The five `np.where` conditions of lines 391-395, band by band. -/
def bandCond : Band → ℚ → Bool
  | Band.highlyBelow, s => decide (st Band.highlyBelow < s)
  | Band.below, s => decide (s ≤ st Band.highlyBelow) && decide (st Band.below < s)
  | Band.along, s => decide (s ≤ st Band.below) && decide (st Band.above < s)
  | Band.above, s => decide (s ≤ st Band.above) && decide (st Band.highlyAbove < s)
  | Band.highlyAbove, s => decide (s ≤ st Band.highlyAbove)

/-- The fixed insertion order of the bands in the dicts `st` and `si`. -/
def allBands : List Band :=
  [Band.highlyBelow, Band.below, Band.along, Band.above, Band.highlyAbove]

/-- The dict `si` after the filter of line 396, generalized to a sublist of
bands: each band of `bands` whose `np.where` index set over `scores` is
nonempty, paired with the first index `v[0]` of that set (which is
`findIdx?` of the band's condition). -/
def siAux : List Band → List ℚ → List (Band × ℕ)
  | [], _ => []
  | b :: bs, scores =>
    match scores.findIdx? (bandCond b) with
    | none => siAux bs scores
    | some v => (b, v) :: siAux bs scores

/-- The dict `si` of line 396: nonempty bands in insertion order, each with
the first ranked-stock index falling in it. -/
def si (scores : List ℚ) : List (Band × ℕ) := siAux allBands scores

/-- `np.diff(vals) + [n - vals[-1]]` (line 398): distances between the
consecutive first indices, closed by the count of remaining stocks. -/
def diffCounts (n : ℕ) : List ℕ → List ℕ
  | [] => []
  | [v] => [n - v]
  | v :: w :: rest => (w - v) :: diffCounts n (w :: rest)

/-- `np.repeat(keys, counts)` (line 398). -/
def repeatBands : List Band → List ℕ → List Band
  | b :: bs, c :: cs => List.replicate c b ++ repeatBands bs cs
  | _, _ => []

/-- `ranked_rating`, generalized to a band sublist (for the correctness
induction): repeat the nonempty bands by their diff counts. -/
def ratingAux (bands : List Band) (scores : List ℚ) : List Band :=
  repeatBands ((siAux bands scores).map Prod.fst)
    (diffCounts scores.length ((siAux bands scores).map Prod.snd))

/-- `ranked_rating` of line 398: one band per ranked stock. -/
def ranked_rating (scores : List ℚ) : List Band :=
  repeatBands ((si scores).map Prod.fst)
    (diffCounts scores.length ((si scores).map Prod.snd))

/-- Reference band assignment of a single score: the unique band whose
interval condition holds (derived from the conditions of lines 391-395,
which partition the score axis). -/
def bandOf (s : ℚ) : Band :=
  if st Band.highlyBelow < s then Band.highlyBelow
  else if st Band.below < s then Band.below
  else if st Band.above < s then Band.along
  else if st Band.highlyAbove < s then Band.above
  else Band.highlyAbove

/-- Numeric position of each band in the fixed order. -/
def bandPos : Band → ℕ
  | Band.highlyBelow => 0
  | Band.below => 1
  | Band.along => 2
  | Band.above => 3
  | Band.highlyAbove => 4

/-! #### Claims C1, C2, C4 -/

/-- Claim C1, counterexample: with two candidates of equal (tied) finite
backtest loss, the code returns the LATER order 2, not the first order 1
that achieved the minimum: on a tie the `else` branch runs and replaces
`min_order`. -/
theorem order_selection_tie_counterexample :
    order_selection [(1, Vfloat.fin 1), (2, Vfloat.fin 1)] = some 2 := by
  decide

/-- Claim C1 (amended): for every later candidate (`0 < i`), the incumbent
`min_order` is kept exactly when the candidate's loss strictly exceeds the
best loss so far; whenever the loss does not strictly exceed it — in
particular on an exact tie of finite losses — the candidate REPLACES the
incumbent, so among equal-minimum candidates the last one examined wins. -/
theorem selStep_replace (i o : ℕ) (hi : 0 < i) (l : Vfloat) (s : SelState) :
    (vgt l s.min_loss = true → (selStep i o l s).min_order = s.min_order) ∧
    (vgt l s.min_loss = false → (selStep i o l s).min_order = some o) ∧
    (∀ q : ℚ, l = Vfloat.fin q → s.min_loss = Vfloat.fin q →
      (selStep i o l s).min_order = some o) := by
  refine ⟨?_, ?_, ?_⟩
  · intro h
    simp [selStep, hi, h]
  · intro h
    simp [selStep, h]
  · intro q hl hs
    subst hl
    simp [selStep, hs, vgt]

/-- Witness for `selStep_replace` at a concrete tied input. -/
theorem selStep_replace_witness :
    (selStep 1 2 (Vfloat.fin 1) ⟨Vfloat.fin 1, some 1, 0⟩).min_order = some 2 :=
  (selStep_replace 1 2 (by decide) (Vfloat.fin 1) ⟨Vfloat.fin 1, some 1, 0⟩).2.2
    1 rfl rfl

/-- Claim C2, counterexample: after a second candidate whose loss ties the
best-seen loss — which does NOT improve on it, since `¬(2 < 2)` — the
patience counter is 0, not 1: the code resets the counter on a tie instead
of incrementing it. -/
theorem patience_tie_counterexample :
    (selLoop [(1, Vfloat.fin 2), (2, Vfloat.fin 2)] 0 initState).count = 0 ∧
    ¬ ((2 : ℚ) < 2) := by
  constructor
  · decide
  · decide

/-- Claim C2 (amended): for every later candidate (`0 < i`), the patience
counter increments exactly when the candidate's loss strictly exceeds the
best-seen loss, and resets to zero otherwise (ties reset it); the loop
stops as soon as the counter reaches 3 after a step, leaving the rest of
the candidates unprocessed. -/
theorem selLoop_patience (i o : ℕ) (hi : 0 < i) (l : Vfloat) (s : SelState) :
    ((selStep i o l s).count = if vgt l s.min_loss then s.count + 1 else 0) ∧
    (∀ rest : List (ℕ × Vfloat), (selStep i o l s).count = 3 →
      selLoop ((o, l) :: rest) i s = selStep i o l s) := by
  constructor
  · by_cases h : vgt l s.min_loss
    · simp [selStep, hi, h]
    · simp [selStep, h]
  · intro rest h3
    simp [selLoop, h3]

/-- Witness for `selLoop_patience`: a strictly worse third-in-a-row
candidate pushes the counter from 2 to 3. -/
theorem selLoop_patience_witness :
    (selStep 3 9 (Vfloat.fin 5) ⟨Vfloat.fin 1, some 4, 2⟩).count =
      if vgt (Vfloat.fin 5) (Vfloat.fin 1) then 2 + 1 else 0 :=
  (selLoop_patience 3 9 (by decide) (Vfloat.fin 5) ⟨Vfloat.fin 1, some 4, 2⟩).1

/-- Claim C4: on a loss sequence with no finite value (two NaN losses,
e.g. from diverged training), `order_selection` does not fail: every NaN
comparison is False, so the `else` branch runs each iteration and the
function returns the LAST candidate order. -/
theorem order_selection_nonfinite_returns :
    order_selection [(1, Vfloat.nan), (2, Vfloat.nan)] = some 2 := by
  decide

/-! #### Claim C9: softplus is strictly positive -/

/-- Claim C9: `softplus` maps every real input to a strictly positive
output, so any volatility standard deviation `softplus(psi)` is strictly
positive with no hard floor. -/
theorem softplus_pos (x : ℝ) : 0 < softplus x := by
  have h : (1 : ℝ) < 1 + Real.exp x := by
    have := Real.exp_pos x
    linarith
  exact Real.log_pos h

/-! #### Claim C5: level validation in `define_model` -/

/-- Claim C5: `define_model` raises for every level outside the four
recognized values, and returns a model (an `ok` node list) for each of
`"market"`, `"sector"`, `"industry"`, `"stock"`. -/
theorem define_model_levels :
    (∀ level : String, level ∉ available_levels →
      define_model level = Except.error unknownLevelMessage) ∧
    (∀ level ∈ available_levels, ∃ m, define_model level = Except.ok m) := by
  constructor
  · intro level h
    simp [define_model, h]
  · intro level h
    simp only [available_levels, List.mem_cons, List.not_mem_nil, or_false] at h
    rcases h with h | h | h | h <;> subst h <;> exact ⟨_, rfl⟩

/-- Witness for `define_model_levels`: the unknown level `"galaxy"` raises
and the level `"market"` succeeds. -/
theorem define_model_levels_witness :
    define_model "galaxy" = Except.error unknownLevelMessage ∧
    ∃ m, define_model "market" = Except.ok m :=
  ⟨define_model_levels.1 "galaxy" (by decide),
   define_model_levels.2 "market" (by decide)⟩

/-! #### Claim C6: frozen-value immutability of the staged optimizer -/

/-- Claim C6: once the market stage has produced `(phi_m, psi_m)` they are
frozen — the values `training` returns for them are exactly the values at
the end of the market stage, for every optimizer behavior; likewise the
sector pair is unchanged after the sector stage and the industry pair
after the industry stage. -/
theorem training_freezes {P : Type} (updM updS updI updStock : Store P → PName → P)
    (init : Store P) :
    training updM updS updI updStock init PName.phiM =
      minimizeVars updM marketVars init PName.phiM ∧
    training updM updS updI updStock init PName.psiM =
      minimizeVars updM marketVars init PName.psiM ∧
    training updM updS updI updStock init PName.phiS =
      minimizeVars updS sectorVars (minimizeVars updM marketVars init) PName.phiS ∧
    training updM updS updI updStock init PName.psiS =
      minimizeVars updS sectorVars (minimizeVars updM marketVars init) PName.psiS ∧
    training updM updS updI updStock init PName.phiI =
      minimizeVars updI industryVars
        (minimizeVars updS sectorVars (minimizeVars updM marketVars init)) PName.phiI ∧
    training updM updS updI updStock init PName.psiI =
      minimizeVars updI industryVars
        (minimizeVars updS sectorVars (minimizeVars updM marketVars init)) PName.psiI :=
  ⟨rfl, rfl, rfl, rfl, rfl, rfl⟩

/-! #### Helper lemmas on `linspace` and reversed ranges -/

theorem map_range_reverse (f : ℕ → ℚ) (n : ℕ) :
    ((List.range n).map f).reverse = (List.range n).map (fun i => f (n - 1 - i)) :=
  calc ((List.range n).map f).reverse
      = (List.range n).reverse.map f := (List.map_reverse f _).symm
    _ = ((List.range' 0 n).reverse).map f := by rw [List.range_eq_range']
    _ = ((List.range n).map (fun i => 0 + n - 1 - i)).map f := by rw [List.reverse_range']
    _ = (List.range n).map (fun i => f (n - 1 - i)) := by
        rw [List.map_map]
        apply List.map_congr_left
        intro i _
        simp [Function.comp, Nat.zero_add]

theorem linspace_unit (n : ℕ) (hn : 1 ≤ n) :
    linspace (1 / (n : ℚ)) 1 n =
      (List.range n).map (fun (i : ℕ) => ((i : ℚ) + 1) / (n : ℚ)) := by
  obtain _ | n := n
  · omega
  obtain _ | m := n
  · norm_num [linspace, List.range_succ]
  · simp only [linspace, if_neg (by omega : ¬ (m + 2 ≤ 1))]
    apply List.map_congr_left
    intro i _
    push_cast
    have hm : ((m : ℚ) + 1 + 1) - 1 = (m : ℚ) + 1 := by ring
    rw [hm]
    have h2 : ((m : ℚ) + 1 + 1) ≠ 0 := by positivity
    have h1 : ((m : ℚ) + 1) ≠ 0 := by positivity
    field_simp
    ring

theorem day_frac_in_getLast (t : ℕ) (ht : 1 ≤ t) :
    (day_frac_in t).getLast? = some 1 := by
  obtain ⟨u, rfl⟩ : ∃ u, t = u + 1 := ⟨t - 1, by omega⟩
  rw [day_frac_in, linspace_unit (u + 1) (by omega), List.range_succ, List.map_append]
  simp only [List.map_cons, List.map_nil, List.getLast?_concat, Option.some.injEq]
  push_cast
  exact div_self (by positivity)

/-! #### Claim C7: shape of `order_scale` -/

/-- Claim C7: for every order `k`, `order_scale` has length `k+1`, first
element `1`, last element `1/(k+1)`, and is monotonically non-increasing. -/
theorem order_scale_spec (k : ℕ) :
    (order_scale k).length = k + 1 ∧
    (order_scale k).head? = some 1 ∧
    (order_scale k).getLast? = some (1 / ((k : ℚ) + 1)) ∧
    List.Chain' (fun a b : ℚ => b ≤ a) (order_scale k) := by
  have hcast : ((k + 1 : ℕ) : ℚ) = (k : ℚ) + 1 := by push_cast; ring
  have hform : order_scale k =
      (List.range (k + 1)).map (fun (i : ℕ) => (((k - i : ℕ) : ℚ) + 1) / ((k : ℚ) + 1)) := by
    rw [order_scale, ← hcast, linspace_unit (k + 1) (by omega), map_range_reverse]
    apply List.map_congr_left
    intro i _
    have h3 : k + 1 - 1 - i = k - i := by omega
    rw [h3, hcast]
  have hne : ((k : ℚ) + 1) ≠ 0 := by positivity
  refine ⟨?_, ?_, ?_, ?_⟩
  · rw [hform]; simp
  · rw [hform, List.range_succ_eq_map, List.map_cons, List.head?_cons]
    simp only [Nat.sub_zero, Option.some.injEq]
    exact div_self hne
  · rw [hform, List.range_succ, List.map_append]
    simp only [List.map_cons, List.map_nil, List.getLast?_concat]
    simp [Nat.sub_self]
  · rw [hform, List.chain'_map]
    apply (List.chain'_range_succ _ k).mpr
    intro m hm
    have hpos : (0 : ℚ) < (k : ℚ) + 1 := by positivity
    rw [div_le_div_iff_of_pos_right hpos]
    have : k - (m + 1) ≤ k - m := by omega
    have hc : ((k - (m + 1) : ℕ) : ℚ) ≤ ((k - m : ℕ) : ℚ) := by exact_mod_cast this
    linarith

/-! #### Claim C3: shapes of the forecast bases -/

/-- Claim C3, counterexample: in `order_selection` (line 271) the backtest
forecast basis does NOT have `1 + h` columns: at `k = 0, t = 1, h = 1` its
single row has length 1, not 2 — the backtest basis omits the offset-0
column that the final-prediction basis (line 349) includes. -/
theorem forecast_basis_shape_counterexample :
    ¬ (∀ row ∈ tt_pred_backtest 0 1 1, row.length = 1 + 1) := by
  decide

/-- Claim C3 (amended): the backtest forecast basis is `(k+1) × h` (day
fractions `1 + 1/t, ..., 1 + h/t`), the final-prediction forecast basis is
`(k+1) × (1+h)` (day fractions `1, 1 + 1/t, ..., 1 + h/t`), and both
continue the in-sample day-fraction grid linearly beyond 1 in steps of
`1/t`. -/
theorem forecast_basis_spec (k t h : ℕ) (ht : 1 ≤ t) : ForecastBasisSpec k t h := by
  refine ⟨?_, ?_, ?_, ?_, ?_, ?_, ?_⟩
  · simp [tt_pred_backtest, tt_basis]
  · intro row hrow
    simp only [tt_pred_backtest, tt_basis, List.mem_map] at hrow
    obtain ⟨j, _, rfl⟩ := hrow
    simp [day_frac_backtest]
  · simp [tt_pred_main, tt_basis]
  · intro row hrow
    simp only [tt_pred_main, tt_basis, List.mem_map] at hrow
    obtain ⟨j, _, rfl⟩ := hrow
    simp [day_frac_main]
  · rw [List.chain'_append]
    refine ⟨?_, ?_, ?_⟩
    · obtain ⟨u, rfl⟩ : ∃ u, t = u + 1 := ⟨t - 1, by omega⟩
      rw [day_frac_in, linspace_unit (u + 1) (by omega), List.chain'_map]
      apply (List.chain'_range_succ _ u).mpr
      intro m hm
      push_cast
      ring
    · obtain _ | g := h
      · simp [day_frac_backtest]
      · rw [day_frac_backtest, List.chain'_map]
        apply (List.chain'_range_succ _ g).mpr
        intro m hm
        push_cast
        ring
    · intro x hx y hy
      rw [day_frac_in_getLast t ht] at hx
      simp only [Option.mem_def, Option.some.injEq] at hx
      subst hx
      obtain _ | g := h
      · simp [day_frac_backtest] at hy
      · rw [day_frac_backtest, List.range_succ_eq_map, List.map_cons, List.head?_cons] at hy
        simp only [Option.mem_def, Option.some.injEq] at hy
        subst hy
        push_cast
        ring
  · rw [day_frac_main, Nat.add_comm 1 h, List.range_succ_eq_map, List.map_cons, List.head?_cons]
    simp
  · rw [day_frac_main, Nat.add_comm 1 h, List.chain'_map]
    apply (List.chain'_range_succ _ h).mpr
    intro m hm
    push_cast
    ring

/-- Witness for `forecast_basis_spec` at `k = 1, t = 2, h = 2`. -/
theorem forecast_basis_spec_witness : ForecastBasisSpec 1 2 2 :=
  forecast_basis_spec 1 2 2 (by decide)

/-! #### Helper lemmas on the band classification -/

theorem bandOf_eq_of_cond (b : Band) (s : ℚ) (h : bandCond b s = true) : bandOf s = b := by
  cases b <;>
    simp only [bandCond, st, decide_eq_true_eq, Bool.and_eq_true] at h <;>
    unfold bandOf <;>
    simp only [st] <;>
    split_ifs <;>
    first
      | rfl
      | (exfalso; linarith)

theorem bandCond_bandOf (s : ℚ) : bandCond (bandOf s) s = true := by
  unfold bandOf
  simp only [st]
  split_ifs with h1 h2 h3 h4 <;>
    simp only [bandCond, st, decide_eq_true_eq, Bool.and_eq_true] <;>
    first
      | assumption
      | (constructor <;> linarith)
      | linarith

theorem bandCond_iff (b : Band) (s : ℚ) : bandCond b s = true ↔ bandOf s = b :=
  ⟨bandOf_eq_of_cond b s, fun h => by rw [← h]; exact bandCond_bandOf s⟩

theorem bandOf_antitone {a c : ℚ} (h : c ≤ a) : bandPos (bandOf a) ≤ bandPos (bandOf c) := by
  unfold bandOf
  split_ifs <;> simp only [bandPos] <;> first | omega | linarith

theorem siAux_nil (bands : List Band) : siAux bands [] = [] := by
  induction bands with
  | nil => rfl
  | cons b bs ih => simp [siAux, ih]

theorem map_bandOf_replicate (xs : List ℚ) (b : Band) (h : ∀ x ∈ xs, bandOf x = b) :
    xs.map bandOf = List.replicate xs.length b := by
  induction xs with
  | nil => rfl
  | cons a l ih =>
    simp only [List.map_cons, List.length_cons, List.replicate_succ, List.cons.injEq]
    exact ⟨h a (by simp), ih (fun x hx => h x (by simp [hx]))⟩

theorem diffCounts_shift (p n : ℕ) (vals : List ℕ) :
    diffCounts (p + n) (vals.map (· + p)) = diffCounts n vals := by
  induction vals with
  | nil => rfl
  | cons v rest ih =>
    cases rest with
    | nil => simp only [List.map_cons, List.map_nil, diffCounts]; congr 1; omega
    | cons w r =>
      simp only [List.map_cons, diffCounts, List.cons.injEq] at *
      refine ⟨by omega, ih⟩

theorem siAux_shift (bands : List Band) (scores suf : List ℚ) (p : ℕ)
    (h : ∀ c ∈ bands,
      scores.findIdx? (bandCond c) = (suf.findIdx? (bandCond c)).map (· + p)) :
    siAux bands scores = (siAux bands suf).map (fun x => (x.1, x.2 + p)) := by
  induction bands with
  | nil => rfl
  | cons c cs ih =>
    have hc := h c (by simp)
    have ih' := ih (fun d hd => h d (by simp [hd]))
    cases hfind : suf.findIdx? (bandCond c) with
    | none =>
      rw [hfind] at hc
      simp only [Option.map_none'] at hc
      simp [siAux, hc, hfind, ih']
    | some v =>
      rw [hfind] at hc
      simp only [Option.map_some'] at hc
      simp [siAux, hc, hfind, ih']

/-- If band `b` is the lowest-position band available, is present somewhere
in the descending-sorted list `a :: l`, and all scores fall into
`b :: bs`, then the head `a` itself falls into `b`. -/
theorem head_band_of_present (b : Band) (bs : List Band) (a : ℚ) (l : List ℚ)
    (hsort : (a :: l).Pairwise (fun x y : ℚ => y ≤ x))
    (hmem : ∀ s ∈ a :: l, bandOf s ∈ b :: bs)
    (hb : (b :: bs).Pairwise (fun x y => bandPos x < bandPos y))
    (hpres : (a :: l).findIdx? (bandCond b) ≠ none) :
    bandOf a = b := by
  have hex : ∃ x ∈ a :: l, bandCond b x = true := by
    by_contra hc
    push_neg at hc
    exact hpres (List.findIdx?_eq_none_iff.mpr
      (fun x hx => by simpa using hc x hx))
  obtain ⟨x, hx, hbx⟩ := hex
  have hxb : bandOf x = b := (bandCond_iff b x).mp hbx
  have hax : bandPos (bandOf a) ≤ bandPos b := by
    rcases List.mem_cons.mp hx with rfl | hx'
    · rw [hxb]
    · have hle : x ≤ a := (List.pairwise_cons.mp hsort).1 x hx'
      calc bandPos (bandOf a) ≤ bandPos (bandOf x) := bandOf_antitone hle
        _ = bandPos b := by rw [hxb]
  rcases List.mem_cons.mp (hmem a (by simp)) with h | h
  · exact h
  · have := (List.pairwise_cons.mp hb).1 _ h
    omega

/-- On a descending-sorted nonempty list whose scores all fall into
`bands`, the first value recorded in `siAux` is index 0 (the head's band is
the first nonempty one). -/
theorem siAux_head_val (bands : List Band) : ∀ (a : ℚ) (l : List ℚ),
    (a :: l).Pairwise (fun x y : ℚ => y ≤ x) →
    (∀ s ∈ a :: l, bandOf s ∈ bands) →
    bands.Pairwise (fun x y => bandPos x < bandPos y) →
    ∃ ks, (siAux bands (a :: l)).map Prod.snd = 0 :: ks := by
  induction bands with
  | nil =>
    intro a l _ hmem _
    exact absurd (hmem a (by simp)) (by simp)
  | cons c cs ih =>
    intro a l hsort hmem hb
    cases hfind : (a :: l).findIdx? (bandCond c) with
    | none =>
      have hmem' : ∀ s ∈ a :: l, bandOf s ∈ cs := by
        intro s hs
        have h1 := hmem s hs
        have h2 : bandCond c s = false := List.findIdx?_eq_none_iff.mp hfind s hs
        rcases List.mem_cons.mp h1 with rfl | h
        · exact absurd ((bandCond_iff (bandOf s) s).mpr rfl) (by simp [h2])
        · exact h
      obtain ⟨ks, hks⟩ := ih a l hsort hmem' (List.pairwise_cons.mp hb).2
      exact ⟨ks, by simpa [siAux, hfind] using hks⟩
    | some j =>
      have hab : bandOf a = c :=
        head_band_of_present c cs a l hsort hmem hb (by simp [hfind])
      have ha : bandCond c a = true := (bandCond_iff c a).mpr hab
      have h0 : (a :: l).findIdx? (bandCond c) = some 0 := by
        simp [List.findIdx?_cons, ha]
      exact ⟨(siAux cs (a :: l)).map Prod.snd, by simp [siAux, h0]⟩

/-- Main correctness induction for the band-expansion procedure: on a
descending-sorted score list whose bands all lie in the
position-increasing band list `bands`, the diff-and-repeat expansion of
`siAux` reproduces the per-stock band assignment. -/
theorem ratingAux_eq (bands : List Band) : ∀ scores : List ℚ,
    scores.Pairwise (fun x y : ℚ => y ≤ x) →
    (∀ s ∈ scores, bandOf s ∈ bands) →
    bands.Pairwise (fun x y => bandPos x < bandPos y) →
    ratingAux bands scores = scores.map bandOf := by
  induction bands with
  | nil =>
    intro scores _ hmem _
    cases scores with
    | nil => rfl
    | cons a l => exact absurd (hmem a (by simp)) (by simp)
  | cons b bs ih =>
    intro scores hsort hmem hb
    cases hpres : scores.findIdx? (bandCond b) with
    | none =>
      have hsi : siAux (b :: bs) scores = siAux bs scores := by
        simp [siAux, hpres]
      have hmem' : ∀ s ∈ scores, bandOf s ∈ bs := by
        intro s hs
        have h1 := hmem s hs
        have h2 : bandCond b s = false := List.findIdx?_eq_none_iff.mp hpres s hs
        rcases List.mem_cons.mp h1 with rfl | h
        · exact absurd ((bandCond_iff (bandOf s) s).mpr rfl) (by simp [h2])
        · exact h
      have : ratingAux (b :: bs) scores = ratingAux bs scores := by
        unfold ratingAux
        rw [hsi]
      rw [this]
      exact ih scores hsort hmem' (List.pairwise_cons.mp hb).2
    | some j =>
      cases scores with
      | nil => simp [List.findIdx?_nil] at hpres
      | cons a l =>
        have hab : bandOf a = b :=
          head_band_of_present b bs a l hsort hmem hb (by simp [hpres])
        have ha : bandCond b a = true := (bandCond_iff b a).mpr hab
        have hfind0 : (a :: l).findIdx? (bandCond b) = some 0 := by
          simp [List.findIdx?_cons, ha]
        have hdecomp : (a :: l).takeWhile (bandCond b) ++ (a :: l).dropWhile (bandCond b)
            = a :: l := List.takeWhile_append_dropWhile (bandCond b) (a :: l)
        set pre := (a :: l).takeWhile (bandCond b) with hpre
        set suf := (a :: l).dropWhile (bandCond b) with hsuf
        have hpreb : ∀ x ∈ pre, bandOf x = b := fun x hx =>
          (bandCond_iff b x).mp (List.mem_takeWhile_imp hx)
        have hsortsuf : suf.Pairwise (fun x y : ℚ => y ≤ x) :=
          List.Pairwise.sublist (List.dropWhile_sublist (bandCond b)) hsort
        have hsufbs : ∀ x ∈ suf, bandOf x ∈ bs := by
          cases hsufe : suf with
          | nil => intro x hx; simp at hx
          | cons y rest =>
            have hyb : bandCond b y = false := by
              have hh := List.head?_dropWhile_not (bandCond b) (a :: l)
              rw [← hsuf, hsufe] at hh
              simpa using hh
            have hysuf : y ∈ suf := by rw [hsufe]; simp
            have hymem : bandOf y ∈ bs := by
              have h1 : y ∈ a :: l := by
                rw [← hdecomp]
                exact List.mem_append_right _ hysuf
              rcases List.mem_cons.mp (hmem y h1) with h | h
              · exact absurd ((bandCond_iff (bandOf y) y).mpr rfl) (by simp [h, hyb])
              · exact h
            have hbylt : bandPos b < bandPos (bandOf y) :=
              (List.pairwise_cons.mp hb).1 _ hymem
            intro x hx
            rcases List.mem_cons.mp hx with rfl | hx'
            · exact hymem
            · have hsort2 : (y :: rest).Pairwise (fun u v : ℚ => v ≤ u) := by
                rw [← hsufe]; exact hsortsuf
              have hxy : x ≤ y := (List.pairwise_cons.mp hsort2).1 x hx'
              have hxpos : bandPos (bandOf y) ≤ bandPos (bandOf x) :=
                bandOf_antitone hxy
              have hxmem : bandOf x ∈ b :: bs := by
                apply hmem
                rw [← hdecomp]
                apply List.mem_append_right
                rw [hsufe]
                simp [hx']
              rcases List.mem_cons.mp hxmem with h | h
              · exfalso
                rw [h] at hxpos
                omega
              · exact h
        have hshift : ∀ c ∈ bs, (a :: l).findIdx? (bandCond c) =
            (suf.findIdx? (bandCond c)).map (· + pre.length) := by
          intro c hc
          have hbc : bandPos b < bandPos c := (List.pairwise_cons.mp hb).1 c hc
          have hprefalse : ∀ x ∈ pre, bandCond c x = false := by
            intro x hx
            cases hcx : bandCond c x
            · rfl
            · exfalso
              have h1 : bandOf x = c := (bandCond_iff c x).mp hcx
              have h2 : bandOf x = b := hpreb x hx
              rw [h1] at h2
              rw [← h2] at hbc
              omega
          conv_lhs => rw [← hdecomp]
          rw [List.findIdx?_append, List.findIdx?_eq_none_iff.mpr hprefalse]
          simp
        have hsi : siAux bs (a :: l) =
            (siAux bs suf).map (fun x => (x.1, x.2 + pre.length)) :=
          siAux_shift bs (a :: l) suf pre.length hshift
        have hsib : siAux (b :: bs) (a :: l) =
            (b, 0) :: (siAux bs suf).map (fun x => (x.1, x.2 + pre.length)) := by
          rw [← hsi]
          simp [siAux, hfind0]
        have hlen : (a :: l).length = pre.length + suf.length := by
          rw [← hdecomp, List.length_append]
        cases hsufe : suf with
        | nil =>
          have hpreall : pre = a :: l := by
            rw [← hdecomp, hsufe, List.append_nil]
          have hsib' : siAux (b :: bs) (a :: l) = [(b, 0)] := by
            rw [hsib, hsufe, siAux_nil]
            rfl
          unfold ratingAux
          rw [hsib']
          simp only [List.map_cons, List.map_nil, diffCounts, repeatBands,
            Nat.sub_zero, List.append_nil]
          have hmap := map_bandOf_replicate (a :: l) b (by rw [← hpreall]; exact hpreb)
          simp only [List.map_cons] at hmap
          exact hmap.symm
        | cons y rest =>
          have hmemsuf : ∀ s ∈ y :: rest, bandOf s ∈ bs := by
            rw [← hsufe]; exact hsufbs
          have hsortsuf' : (y :: rest).Pairwise (fun x w : ℚ => w ≤ x) := by
            rw [← hsufe]; exact hsortsuf
          obtain ⟨ks, hks⟩ := siAux_head_val bs y rest hsortsuf' hmemsuf
            (List.pairwise_cons.mp hb).2
          rw [← hsufe] at hks
          have hkeys : ((siAux bs suf).map (fun x : Band × ℕ => (x.1, x.2 + pre.length))).map
              Prod.fst = (siAux bs suf).map Prod.fst := by
            rw [List.map_map]
            rfl
          have hvals : ((siAux bs suf).map (fun x : Band × ℕ => (x.1, x.2 + pre.length))).map
              Prod.snd = ((siAux bs suf).map Prod.snd).map (· + pre.length) := by
            rw [List.map_map, List.map_map]
            rfl
          unfold ratingAux
          rw [hsib]
          simp only [List.map_cons, hkeys, hvals, hks, List.map_cons]
          have hdc : diffCounts (a :: l).length (0 :: (0 + pre.length) ::
              ks.map (· + pre.length)) = pre.length ::
              diffCounts suf.length (0 :: ks) := by
            have h1 : diffCounts (a :: l).length (0 :: (0 + pre.length) ::
                ks.map (· + pre.length)) = ((0 + pre.length) - 0) ::
                diffCounts (a :: l).length ((0 + pre.length) :: ks.map (· + pre.length)) := rfl
            rw [h1]
            have h2 : (0 + pre.length) :: ks.map (· + pre.length) =
                ((0 :: ks).map (· + pre.length)) := by simp
            rw [h2]
            have h3 : (a :: l).length = pre.length + suf.length := hlen
            rw [h3, diffCounts_shift pre.length suf.length (0 :: ks)]
            congr 1
            omega
          rw [hdc]
          have hrep : repeatBands (b :: (siAux bs suf).map Prod.fst)
              (pre.length :: diffCounts suf.length (0 :: ks)) =
              List.replicate pre.length b ++ repeatBands ((siAux bs suf).map Prod.fst)
                (diffCounts suf.length (0 :: ks)) := rfl
          rw [hrep, ← hks]
          have hihsuf : repeatBands ((siAux bs suf).map Prod.fst)
              (diffCounts suf.length ((siAux bs suf).map Prod.snd)) =
              suf.map bandOf := by
            have := ih suf hsortsuf hsufbs (List.pairwise_cons.mp hb).2
            unfold ratingAux at this
            exact this
          rw [hihsuf]
          rw [← map_bandOf_replicate pre b hpreb]
          rw [← List.map_append, hdecomp]
          simp

/-! #### Claim C10: classification invariant on sorted scores -/

/-- Claim C10: on every non-empty descending-sorted score list, the
classification procedure assigns to each stock exactly the band its score
falls into; in particular the rating list has one entry per stock and the
bands appear in contiguous runs following the fixed band order. -/
theorem ranked_rating_spec (scores : List ℚ) (_hne : scores ≠ [])
    (hsort : scores.Pairwise (fun x y : ℚ => y ≤ x)) :
    ranked_rating scores = scores.map bandOf ∧
    (ranked_rating scores).length = scores.length ∧
    List.Chain' (fun x y => bandPos x ≤ bandPos y) (ranked_rating scores) := by
  have hmem : ∀ s ∈ scores, bandOf s ∈ allBands := by
    intro s _
    cases hb : bandOf s <;> simp [allBands]
  have hlt : allBands.Pairwise (fun x y => bandPos x < bandPos y) := by decide
  have heq : ranked_rating scores = scores.map bandOf := by
    have h := ratingAux_eq allBands scores hsort hmem hlt
    unfold ratingAux at h
    exact h
  refine ⟨heq, by rw [heq]; simp, ?_⟩
  rw [heq]
  exact (hsort.map bandOf (fun x y hxy => bandOf_antitone hxy)).chain'

/-- Witness for `ranked_rating_spec` at the ranked scores `[4, 1, -1, -4]`. -/
theorem ranked_rating_spec_witness :
    ranked_rating [4, 1, -1, -4] = List.map bandOf [4, 1, -1, -4] ∧
    (ranked_rating [4, 1, -1, -4]).length = ([4, 1, -1, -4] : List ℚ).length ∧
    List.Chain' (fun x y => bandPos x ≤ bandPos y) (ranked_rating [4, 1, -1, -4]) :=
  ranked_rating_spec [4, 1, -1, -4] (by decide) (by decide)

/-! #### Claim C8: the concrete classification example -/

/-- Claim C8: with the default thresholds, the descending-sorted scores
`[4, 1, -1, -4]` classify to
`["HIGHLY BELOW TREND", "ALONG TREND", "ALONG TREND", "HIGHLY ABOVE TREND"]`. -/
theorem trend_classification_example :
    (ranked_rating [4, 1, -1, -4]).map bandName =
      ["HIGHLY BELOW TREND", "ALONG TREND", "ALONG TREND", "HIGHLY ABOVE TREND"] := by
  decide

end Volatile
